import Mathlib

/-!
Verification of the grond core optimizer (`src/core.py`) against its
natural-language specification.  The Python code is shallowly embedded:
parameter vectors and misfit values are rational numbers, NaN-capable
misfit entries are `Option` values, the append-only run files are lists
of values, and the random number generator and the external problem
contract (`evaluate`, `preconstrain`, `global_misfit`, `bootstrap_misfit`)
are oracle parameters.
-/

namespace Grond

/-! ### Iteration budget and phase map of `solve` (core.py lines 917-934, 1093-1104) -/

/-- Total iteration count computed by `solve` (core.py line 922):
`niter = niter_inject + niter_uniform + niter_explorative + niter_non_explorative`.
The argument `niter_transition` is accepted (as in the Python signature) but,
exactly as in the source, does not enter the sum. -/
def solveNiter (niter_inject niter_uniform niter_transition niter_explorative
    niter_non_explorative : ℕ) : ℕ :=
  niter_inject + niter_uniform + niter_explorative + niter_non_explorative

/-- The five proposal phases of the solver. -/
inductive Phase where
  | inject
  | uniform
  | transition
  | explorative
  | nonExplorative
  deriving DecidableEq, Repr

/-- Phase of iteration `iiter`, exactly the cascade of comparisons at
core.py lines 1093-1104. -/
def phaseOf (niter_inject niter_uniform niter_transition niter_explorative
    iiter : ℕ) : Phase :=
  if iiter < niter_inject then Phase.inject
  else if iiter < niter_inject + niter_uniform then Phase.uniform
  else if iiter < niter_inject + niter_uniform + niter_transition then
    Phase.transition
  else if iiter < niter_inject + niter_uniform + niter_transition +
      niter_explorative then Phase.explorative
  else Phase.nonExplorative

/-! ### Transition-phase proposal scale factor (core.py lines 936-941) -/

/-- The proposal-covariance scale factor computed at core.py lines 936-941:
inside the transition phase it is
`4.0 * (1.0 - (iiter - niter_uniform - niter_inject) / niter_transition)`,
outside it is `1.0`. -/
def transitionFactor (niter_inject niter_uniform niter_transition iiter : ℕ) : ℚ :=
  if niter_inject + niter_uniform ≤ iiter ∧
      iiter < niter_inject + niter_uniform + niter_transition then
    4 * (1 - ((iiter : ℚ) - niter_uniform - niter_inject) / niter_transition)
  else 1

/-- Claim C1: with injection matrix of 2 rows and budgets uniform=3,
transition=2, explorative=4, non-explorative=1, the claim states that the
main loop performs 12 iterations with one non-explorative iteration.  The
code computes `niter = 10` (the transition budget is omitted from the sum
at core.py line 922), and over those 10 iterations the phase map of lines
1093-1104 yields 2 inject, 3 uniform, 2 transition, 3 explorative and 0
non-explorative iterations. -/
theorem solve_niter_omits_transition :
    solveNiter 2 3 2 4 1 = 10 ∧
    (2 + 3 + 2 + 4 + 1 : ℕ) = 12 ∧
    solveNiter 2 3 2 4 1 ≠ 12 ∧
    ((List.range (solveNiter 2 3 2 4 1)).filter
      (fun i => decide (phaseOf 2 3 2 4 i = Phase.inject))).length = 2 ∧
    ((List.range (solveNiter 2 3 2 4 1)).filter
      (fun i => decide (phaseOf 2 3 2 4 i = Phase.uniform))).length = 3 ∧
    ((List.range (solveNiter 2 3 2 4 1)).filter
      (fun i => decide (phaseOf 2 3 2 4 i = Phase.transition))).length = 2 ∧
    ((List.range (solveNiter 2 3 2 4 1)).filter
      (fun i => decide (phaseOf 2 3 2 4 i = Phase.explorative))).length = 3 ∧
    ((List.range (solveNiter 2 3 2 4 1)).filter
      (fun i => decide (phaseOf 2 3 2 4 i = Phase.nonExplorative))).length = 0 := by
  decide

/-- Claim C3, counterexample: with `niter_inject = 0`, `niter_uniform = 0`
and `niter_transition = 5`, iteration 4 lies inside the transition phase
yet its factor is `4/5 < 1`, so the factor does not decay linearly from
4.0 to 1.0 across the phase: it drops strictly below 1.0 before the phase
ends. -/
theorem transition_factor_below_one_in_phase :
    (0 + 0 ≤ 4 ∧ 4 < 0 + 0 + 5) ∧
    transitionFactor 0 0 5 4 = 4 / 5 ∧
    (4 / 5 : ℚ) < 1 := by
  refine ⟨by decide, ?_, by norm_num⟩
  norm_num [transitionFactor]

/-- Claim C3, amended: for every iteration inside the transition phase the
factor equals `4 * (niter_transition - t) / niter_transition`, where `t` is
the offset from the phase start.  It is `4.0` at the phase start, decreases
by exactly `4 / niter_transition` per iteration (linear in the iteration
index, heading to 0 one step past the phase, so the last in-phase value is
`4 / niter_transition`, not 1.0), and every iteration outside the
transition phase has factor `1.0`. -/
theorem transition_factor_linear (ninj nuni ntra : ℕ) (hT : 0 < ntra) :
    (∀ t : ℕ, t < ntra →
      transitionFactor ninj nuni ntra (ninj + nuni + t) =
        4 * ((ntra : ℚ) - t) / ntra) ∧
    transitionFactor ninj nuni ntra (ninj + nuni) = 4 ∧
    (∀ t : ℕ, t + 1 < ntra →
      transitionFactor ninj nuni ntra (ninj + nuni + (t + 1)) -
        transitionFactor ninj nuni ntra (ninj + nuni + t) = -(4 / ntra)) ∧
    (∀ i : ℕ, i < ninj + nuni ∨ ninj + nuni + ntra ≤ i →
      transitionFactor ninj nuni ntra i = 1) := by
  have hT0 : (ntra : ℚ) ≠ 0 := Nat.cast_ne_zero.mpr hT.ne'
  have hin : ∀ t : ℕ, t < ntra →
      transitionFactor ninj nuni ntra (ninj + nuni + t) =
        4 * ((ntra : ℚ) - t) / ntra := by
    intro t ht
    rw [transitionFactor, if_pos ⟨Nat.le_add_right _ _, by omega⟩]
    push_cast
    field_simp
    ring
  refine ⟨hin, ?_, ?_, ?_⟩
  · have h0 := hin 0 hT
    simp only [Nat.add_zero, Nat.cast_zero, sub_zero] at h0
    rw [h0, mul_div_assoc, div_self hT0, mul_one]
  · intro t ht
    rw [hin (t + 1) ht, hin t (by omega)]
    push_cast
    field_simp
    ring
  · intro i hi
    rw [transitionFactor, if_neg]
    omega

/-- Concrete instantiation of `transition_factor_linear` with
`niter_inject = 0`, `niter_uniform = 0`, `niter_transition = 2`:
the factor is 4.0 at iteration 0, 2.0 at iteration 1 (the last
transition iteration), and 1.0 at iteration 2 (outside the phase). -/
theorem transition_factor_linear_witness :
    transitionFactor 0 0 2 0 = 4 ∧
    transitionFactor 0 0 2 1 = 2 ∧
    transitionFactor 0 0 2 2 = 1 := by
  have h := transition_factor_linear 0 0 2 (by norm_num)
  refine ⟨by simpa using h.2.1, ?_, by simpa using h.2.2.2 2 (Or.inr (by norm_num))⟩
  have h1 := h.1 1 (by norm_num)
  simp only [Nat.zero_add] at h1
  rw [h1]
  norm_num

/-! ### Bootstrap weights (core.py lines 162-181) -/

/-- One bootstrap weight row: the histogram over the unit bins centered on
`0, ..., ntargets - 1` of the `ntargets` integer draws
`draws 0, ..., draws (ntargets - 1)` (core.py lines 167-169:
`rstate.randint(0, ntargets, size=ntargets)` histogrammed with `ntargets`
bins over `(-0.5, ntargets - 0.5)`, so bin `t` counts the draws equal to
`t`). -/
def bootstrapRow (ntargets : ℕ) (draws : ℕ → ℕ) : List ℕ :=
  (List.range ntargets).map (fun t => ((List.range ntargets).map draws).count t)

/-- `Problem.make_bootstrap_weights` (core.py lines 162-171): one histogram
row per bootstrap replica.  The seeded random state is the oracle `rng`:
`rng ib j` is the j-th integer drawn for replica `ib`. -/
def make_bootstrap_weights (rng : ℕ → ℕ → ℕ) (nbootstrap ntargets : ℕ) :
    List (List ℕ) :=
  (List.range nbootstrap).map (fun ib => bootstrapRow ntargets (rng ib))

/-- `Problem.get_bootstrap_weights` (core.py lines 173-181), caching part:
`cache` models the `_bootstrap_weights` attribute, `none` standing for the
Python `None`.  Returns the weight matrix together with the updated cache. -/
def get_bootstrap_weights (rng : ℕ → ℕ → ℕ) (nbootstrap ntargets : ℕ)
    (cache : Option (List (List ℕ))) :
    List (List ℕ) × Option (List (List ℕ)) :=
  match cache with
  | none =>
    let ws := make_bootstrap_weights rng nbootstrap ntargets
    (ws, some ws)
  | some ws => (ws, some ws)

lemma sum_map_add_distrib (L : List ℕ) (f g : ℕ → ℕ) :
    (L.map (fun t => f t + g t)).sum = (L.map f).sum + (L.map g).sum := by
  induction L with
  | nil => simp
  | cons a L ih => simp [ih]; omega

lemma sum_range_indicator (T a : ℕ) :
    ((List.range T).map (fun t => if a = t then 1 else 0)).sum =
      if a < T then 1 else 0 := by
  induction T with
  | zero => simp
  | succ T ih =>
    rw [List.range_succ, List.map_append, List.sum_append, ih]
    rcases Nat.lt_trichotomy a T with h | h | h
    · have h1 : a ≠ T := by omega
      have h2 : a < T + 1 := by omega
      simp [h, h1, h2]
    · subst h
      simp
    · have h1 : ¬a < T := by omega
      have h2 : a ≠ T := by omega
      have h3 : ¬a < T + 1 := by omega
      simp [h1, h2, h3]

lemma sum_range_count (T : ℕ) (l : List ℕ) (hl : ∀ x ∈ l, x < T) :
    ((List.range T).map (fun t => l.count t)).sum = l.length := by
  induction l with
  | nil => simp
  | cons a l ih =>
    have ha : a < T := hl a (List.mem_cons_self a l)
    have hrec := ih (fun x hx => hl x (List.mem_cons_of_mem a hx))
    have hcnt : ∀ t : ℕ, (a :: l).count t = l.count t + if a = t then 1 else 0 := by
      intro t
      simp [List.count_cons]
    calc ((List.range T).map (fun t => (a :: l).count t)).sum
        = ((List.range T).map (fun t => l.count t + if a = t then 1 else 0)).sum := by
          exact congrArg List.sum (List.map_congr_left (fun t _ => hcnt t))
      _ = ((List.range T).map (fun t => l.count t)).sum +
            ((List.range T).map (fun t => if a = t then 1 else 0)).sum := by
          exact sum_map_add_distrib _ _ _
      _ = l.length + 1 := by rw [hrec, sum_range_indicator, if_pos ha]
      _ = (a :: l).length := by simp

/-- Claim C5: for every `nbootstrap` and every `ntargets ≥ 1`, provided the
random draws are in `[0, ntargets)` as `randint(0, ntargets)` guarantees,
`make_bootstrap_weights` yields an `nbootstrap × ntargets` matrix of
non-negative integer counts each of whose rows sums to `ntargets`. -/
theorem make_bootstrap_weights_rows (rng : ℕ → ℕ → ℕ) (nbootstrap ntargets : ℕ)
    (hT : 1 ≤ ntargets) (hrng : ∀ ib j, rng ib j < ntargets) :
    (make_bootstrap_weights rng nbootstrap ntargets).length = nbootstrap ∧
    ∀ row ∈ make_bootstrap_weights rng nbootstrap ntargets,
      row.length = ntargets ∧ row.sum = ntargets := by
  constructor
  · simp [make_bootstrap_weights]
  · intro row hrow
    rw [make_bootstrap_weights, List.mem_map] at hrow
    obtain ⟨ib, _, hib⟩ := hrow
    subst hib
    constructor
    · simp [bootstrapRow]
    · rw [bootstrapRow]
      have hmem : ∀ x ∈ (List.range ntargets).map (rng ib), x < ntargets := by
        intro x hx
        rw [List.mem_map] at hx
        obtain ⟨j, _, hj⟩ := hx
        exact hj ▸ hrng ib j
      rw [sum_range_count ntargets _ hmem]
      simp

/-- Concrete instantiation of `make_bootstrap_weights_rows` with
`rng ib j = (ib + j) % 3`, `nbootstrap = 2`, `ntargets = 3`. -/
theorem make_bootstrap_weights_rows_witness :
    (make_bootstrap_weights (fun ib j => (ib + j) % 3) 2 3).length = 2 ∧
    ∀ row ∈ make_bootstrap_weights (fun ib j => (ib + j) % 3) 2 3,
      row.length = 3 ∧ row.sum = 3 :=
  make_bootstrap_weights_rows (fun ib j => (ib + j) % 3) 2 3 (by norm_num)
    (fun ib j => Nat.mod_lt _ (by norm_num))

/-- Claim C6: bootstrap-weight generation is deterministic: two random
states producing the same draw stream (as `RandomState(23)` does for equal
constructor arguments) give element-for-element identical weight matrices;
and `get_bootstrap_weights` computes the matrix once: the first call fills
the cache with exactly `make_bootstrap_weights`, and a second call returns
the same matrix and leaves the cache unchanged. -/
theorem bootstrap_weights_deterministic (rng rng2 : ℕ → ℕ → ℕ)
    (nbootstrap ntargets : ℕ) (h : ∀ ib j, rng ib j = rng2 ib j) :
    make_bootstrap_weights rng nbootstrap ntargets =
      make_bootstrap_weights rng2 nbootstrap ntargets ∧
    (get_bootstrap_weights rng nbootstrap ntargets none).1 =
      make_bootstrap_weights rng nbootstrap ntargets ∧
    (get_bootstrap_weights rng nbootstrap ntargets
        (get_bootstrap_weights rng nbootstrap ntargets none).2).1 =
      (get_bootstrap_weights rng nbootstrap ntargets none).1 ∧
    (get_bootstrap_weights rng nbootstrap ntargets
        (get_bootstrap_weights rng nbootstrap ntargets none).2).2 =
      (get_bootstrap_weights rng nbootstrap ntargets none).2 := by
  have hfun : rng = rng2 := funext (fun ib => funext (fun j => h ib j))
  exact ⟨by rw [hfun], rfl, rfl, rfl⟩

/-- Concrete instantiation of `bootstrap_weights_deterministic` with two
syntactically different but pointwise equal draw streams. -/
theorem bootstrap_weights_deterministic_witness :
    make_bootstrap_weights (fun ib j => (ib + j) % 3) 2 3 =
      make_bootstrap_weights (fun ib j => (j + ib) % 3) 2 3 ∧
    (get_bootstrap_weights (fun ib j => (ib + j) % 3) 2 3 none).1 =
      make_bootstrap_weights (fun ib j => (ib + j) % 3) 2 3 ∧
    (get_bootstrap_weights (fun ib j => (ib + j) % 3) 2 3
        (get_bootstrap_weights (fun ib j => (ib + j) % 3) 2 3 none).2).1 =
      (get_bootstrap_weights (fun ib j => (ib + j) % 3) 2 3 none).1 ∧
    (get_bootstrap_weights (fun ib j => (ib + j) % 3) 2 3
        (get_bootstrap_weights (fun ib j => (ib + j) % 3) 2 3 none).2).2 =
      (get_bootstrap_weights (fun ib j => (ib + j) % 3) 2 3 none).2 :=
  bootstrap_weights_deterministic (fun ib j => (ib + j) % 3)
    (fun ib j => (j + ib) % 3) 2 3 (fun ib j => by simp [Nat.add_comm])

/-! ### Run-file persistence (core.py lines 128-136, 770-794) -/

/-- The pair of append-only run files, each modeled as the ordered list of
float64 values it contains: the `x` file and the `misfits` file. -/
structure RunFiles where
  xfile : List ℚ
  misfitsfile : List ℚ
  deriving DecidableEq, Repr

/-- `Problem.dump_problem_data` (core.py lines 128-136): append `x` to the
`x` file, and `ms` followed by `ns` to the `misfits` file. -/
def dump_problem_data (files : RunFiles) (x ms ns : List ℚ) : RunFiles :=
  ⟨files.xfile ++ x, files.misfitsfile ++ ms ++ ns⟩

/-- A sequence of `dump_problem_data` calls starting from empty files. -/
def dumpAll (writes : List (List ℚ × List ℚ × List ℚ)) : RunFiles :=
  writes.foldl (fun fs w => dump_problem_data fs w.1 w.2.1 w.2.2) ⟨[], []⟩

/-- Split a flat value list into consecutive rows of width `w` (the
`reshape` steps of `load_problem_data`). -/
def chunkRows (w : ℕ) (l : List ℚ) : List (List ℚ) :=
  if h : w = 0 ∨ l = [] then [] else
    l.take w :: chunkRows w (l.drop w)
termination_by l.length
decreasing_by
  rw [List.length_drop]
  have h1 : w ≠ 0 ∧ l ≠ [] := by tauto
  have h2 : 0 < l.length := List.length_pos.mpr h1.2
  omega

/-- `load_problem_data` (core.py lines 770-794): `nmodels` is the `x` file
size divided by the row width; the `x` file is reshaped into
`nmodels × nparameters` rows; the first `2·ntargets·nmodels` values of the
`misfits` file are reshaped into rows of `2·ntargets` values, and entry
`(t, 0)` / `(t, 1)` of model row `i` is value `t` / value `ntargets + t` of
that row (the `combi` interleaving of lines 788-792). -/
def load_problem_data (nparameters ntargets : ℕ) (files : RunFiles) :
    List (List ℚ) × List (List (ℚ × ℚ)) :=
  let nmodels := files.xfile.length / nparameters
  let xs := chunkRows nparameters (files.xfile.take (nmodels * nparameters))
  let rows := chunkRows (2 * ntargets)
    (files.misfitsfile.take (nmodels * (2 * ntargets)))
  (xs, rows.map (fun row => (row.take ntargets).zip (row.drop ntargets)))

lemma chunkRows_nil (w : ℕ) : chunkRows w [] = [] := by
  rw [chunkRows]
  simp

lemma chunkRows_flatten (w : ℕ) (hw : 0 < w) :
    ∀ rows : List (List ℚ), (∀ r ∈ rows, r.length = w) →
      chunkRows w rows.flatten = rows := by
  intro rows
  induction rows with
  | nil => intro _; simpa using chunkRows_nil w
  | cons r rs ih =>
    intro hlen
    have hr : r.length = w := hlen r (List.mem_cons_self r rs)
    have hrne : r ≠ [] := by
      intro hcon
      rw [hcon] at hr
      simp at hr
      omega
    have hne : r ++ rs.flatten ≠ [] := by
      intro hcon
      exact hrne (List.append_eq_nil.mp hcon).1
    rw [List.flatten, chunkRows, dif_neg (by push_neg; exact ⟨by omega, hne⟩)]
    rw [← hr, List.take_left, List.drop_left]
    rw [hr, ih (fun s hs => hlen s (List.mem_cons_of_mem r hs))]

lemma dumpAll_eq_aux (writes : List (List ℚ × List ℚ × List ℚ)) :
    ∀ fs : RunFiles,
      writes.foldl (fun fs w => dump_problem_data fs w.1 w.2.1 w.2.2) fs =
        ⟨fs.xfile ++ (writes.map (fun w => w.1)).flatten,
         fs.misfitsfile ++ (writes.map (fun w => w.2.1 ++ w.2.2)).flatten⟩ := by
  induction writes with
  | nil => intro fs; simp
  | cons w ws ih =>
    intro fs
    rw [List.foldl_cons, ih]
    simp [dump_problem_data, List.append_assoc]

lemma dumpAll_eq (writes : List (List ℚ × List ℚ × List ℚ)) :
    dumpAll writes =
      ⟨(writes.map (fun w => w.1)).flatten,
       (writes.map (fun w => w.2.1 ++ w.2.2)).flatten⟩ := by
  rw [dumpAll, dumpAll_eq_aux]
  simp

lemma flatten_length_const (w : ℕ) :
    ∀ L : List (List ℚ), (∀ r ∈ L, r.length = w) →
      L.flatten.length = L.length * w := by
  intro L
  induction L with
  | nil => intro _; simp
  | cons r rs ih =>
    intro hlen
    rw [List.flatten, List.length_append, hlen r (List.mem_cons_self r rs),
      ih (fun s hs => hlen s (List.mem_cons_of_mem r hs))]
    simp [Nat.succ_mul, Nat.add_comm]

/-- Claim C7: round-trip of the persisted run data.  After any sequence of
`dump_problem_data` calls whose parameter vectors have length
`nparameters` and whose misfit and normalization vectors have length
`ntargets`, `load_problem_data` recovers the parameter vectors in write
order, and model row `i` of the misfit array pairs the i-th written misfit
value with the i-th written normalization for each target. -/
theorem load_dump_roundtrip (nparameters ntargets : ℕ)
    (hp : 0 < nparameters) (ht : 0 < ntargets)
    (writes : List (List ℚ × List ℚ × List ℚ))
    (hlen : ∀ w ∈ writes, w.1.length = nparameters ∧
      w.2.1.length = ntargets ∧ w.2.2.length = ntargets) :
    load_problem_data nparameters ntargets (dumpAll writes) =
      (writes.map (fun w => w.1),
       writes.map (fun w => w.2.1.zip w.2.2)) := by
  rw [dumpAll_eq]
  have hx : ∀ r ∈ writes.map (fun w => w.1), r.length = nparameters := by
    intro r hr
    rw [List.mem_map] at hr
    obtain ⟨w, hw, hwr⟩ := hr
    exact hwr ▸ (hlen w hw).1
  have hm : ∀ r ∈ writes.map (fun w => w.2.1 ++ w.2.2),
      r.length = 2 * ntargets := by
    intro r hr
    rw [List.mem_map] at hr
    obtain ⟨w, hw, hwr⟩ := hr
    rw [← hwr, List.length_append, (hlen w hw).2.1, (hlen w hw).2.2]
    omega
  have hxlen : (writes.map (fun w => w.1)).flatten.length =
      writes.length * nparameters := by
    rw [flatten_length_const nparameters _ hx]
    simp
  have hmlen : (writes.map (fun w => w.2.1 ++ w.2.2)).flatten.length =
      writes.length * (2 * ntargets) := by
    rw [flatten_length_const (2 * ntargets) _ hm]
    simp
  rw [load_problem_data]
  simp only [hxlen, Nat.mul_div_cancel _ hp]
  rw [← hxlen, List.take_length, ← hmlen, List.take_length]
  rw [chunkRows_flatten nparameters hp _ hx,
    chunkRows_flatten (2 * ntargets) (by omega) _ hm]
  refine Prod.ext rfl ?_
  rw [List.map_map]
  refine List.map_congr_left ?_
  intro w hw
  have h1 : w.2.1.length = ntargets := (hlen w hw).2.1
  simp only [Function.comp]
  rw [← h1, List.take_left, List.drop_left]

/-- Concrete instantiation of `load_dump_roundtrip`: two dumped models with
2 parameters and 1 target. -/
theorem load_dump_roundtrip_witness :
    load_problem_data 2 1
        (dumpAll [([1, 2], [3], [4]), ([5, 6], [7], [8])]) =
      ([[1, 2], [5, 6]], [[(3, 4)], [(7, 8)]]) :=
  load_dump_roundtrip 2 1 (by norm_num) (by norm_num)
    [([1, 2], [3], [4]), ([5, 6], [7], [8])] (by decide)

/-! ### Chain ledger (core.py lines 911-913, 1022-1037) -/

/-- Ordering of ledger entries (misfit, iteration index) by misfit. -/
def misfitLE (a b : ℚ × ℕ) : Prop := a.1 ≤ b.1

instance : DecidableRel misfitLE :=
  fun a b => inferInstanceAs (Decidable (a.1 ≤ b.1))

instance : IsTotal (ℚ × ℕ) misfitLE := ⟨fun a b => le_total a.1 b.1⟩

instance : IsTrans (ℚ × ℕ) misfitLE :=
  ⟨fun _ _ _ hab hbc => le_trans hab hbc⟩

/-- Ledger capacity (core.py line 911): `nlinks_cap = 8 * npar + 1`. -/
def nlinks_cap (npar : ℕ) : ℕ := 8 * npar + 1

/-- One insertion into one replica row of the chain ledger (core.py lines
1022-1037): the new entry `(m, iiter)` goes to position `nlinks`, the live
prefix is re-sorted ascending by misfit, and when the row has reached
`nlinks_cap` entries the last (worst) entry is cut off (`nlinks -= 1`). -/
def insertChain (cap : ℕ) (chain : List (ℚ × ℕ)) (m : ℚ) (iiter : ℕ) :
    List (ℚ × ℕ) :=
  let s := List.insertionSort misfitLE (chain ++ [(m, iiter)])
  if s.length = cap then s.dropLast else s

/-- The per-iteration multi-replica ledger update (core.py lines
1022-1031): replica row `i` receives the new sample under its own misfit
`ms i` (row 0 carries the global misfit, rows 1.. the bootstrap misfits),
every row tagged with the same iteration index. -/
def ledgerStep (cap : ℕ) (chains : List (List (ℚ × ℕ))) (ms : List ℚ)
    (iiter : ℕ) : List (List (ℚ × ℕ)) :=
  (chains.zip ms).map (fun p => insertChain cap p.1 p.2 iiter)

lemma sorted_rel_getLast :
    ∀ (s : List (ℚ × ℕ)), List.Sorted misfitLE s → ∀ (hne : s ≠ []),
      ∀ p ∈ s, misfitLE p (s.getLast hne) := by
  intro s
  induction s with
  | nil => intro _ hne; exact absurd rfl hne
  | cons a t ih =>
    intro hs hne p hp
    cases t with
    | nil =>
      rw [List.mem_singleton] at hp
      subst hp
      exact le_refl _
    | cons b u =>
      rw [List.getLast_cons (List.cons_ne_nil b u)]
      have hhead := (List.sorted_cons.mp hs).1
      have htail := (List.sorted_cons.mp hs).2
      rcases List.mem_cons.mp hp with hpa | hpt
      · subst hpa
        exact hhead _ (List.getLast_mem (List.cons_ne_nil b u))
      · exact ih htail (List.cons_ne_nil b u) p hpt

lemma sorted_insertChain (cap : ℕ) (chain : List (ℚ × ℕ)) (m : ℚ)
    (iiter : ℕ) : List.Sorted misfitLE (insertChain cap chain m iiter) := by
  rw [insertChain]
  have hs := List.sorted_insertionSort misfitLE (chain ++ [(m, iiter)])
  split_ifs
  · exact hs.sublist (List.dropLast_sublist _)
  · exact hs

lemma length_insertChain_lt (cap : ℕ) (chain : List (ℚ × ℕ)) (m : ℚ)
    (iiter : ℕ) (h : chain.length < cap) :
    (insertChain cap chain m iiter).length < cap := by
  rw [insertChain]
  have hs : (List.insertionSort misfitLE (chain ++ [(m, iiter)])).length =
      chain.length + 1 := by
    rw [List.length_insertionSort, List.length_append]
    simp
  split_ifs with heq
  · rw [List.length_dropLast, hs]
    omega
  · rw [hs] at heq ⊢
    omega

lemma insertChain_evicts (cap : ℕ) (chain : List (ℚ × ℕ)) (m : ℚ)
    (iiter : ℕ) (h : chain.length + 1 = cap) :
    ∃ e, (chain ++ [(m, iiter)]).Perm
        (insertChain cap chain m iiter ++ [e]) ∧
      ∀ p ∈ chain ++ [(m, iiter)], misfitLE p e := by
  have hs : (List.insertionSort misfitLE (chain ++ [(m, iiter)])).length =
      cap := by
    rw [List.length_insertionSort, List.length_append]
    simp
    omega
  have hne : List.insertionSort misfitLE (chain ++ [(m, iiter)]) ≠ [] := by
    intro hcon
    rw [hcon] at hs
    simp at hs
    omega
  refine ⟨(List.insertionSort misfitLE (chain ++ [(m, iiter)])).getLast hne,
    ?_, ?_⟩
  · rw [insertChain]
    simp only [hs, if_pos]
    rw [List.dropLast_append_getLast hne]
    exact (List.perm_insertionSort misfitLE _).symm
  · intro p hp
    exact sorted_rel_getLast _ (List.sorted_insertionSort misfitLE _) hne p
      ((List.mem_insertionSort misfitLE).mpr hp)

lemma ledgerStep_getD :
    ∀ (cap : ℕ) (chains : List (List (ℚ × ℕ))) (ms : List ℚ) (iiter j : ℕ),
      j < chains.length → j < ms.length →
      (ledgerStep cap chains ms iiter).getD j [] =
        insertChain cap (chains.getD j []) (ms.getD j 0) iiter := by
  intro cap chains
  induction chains with
  | nil => intro ms iiter j hj _; simp at hj
  | cons c cs ih =>
    intro ms iiter j hj hm
    cases ms with
    | nil => simp at hm
    | cons v vs =>
      cases j with
      | zero => simp [ledgerStep]
      | succ j =>
        have := ih vs iiter j (by simpa using hj) (by simpa using hm)
        simpa [ledgerStep] using this

/-! ### The solve driver loop (core.py lines 898-1121) -/

/-- Outcome of one call to the external `problem.evaluate`: the candidate
vector it was given, the per-target misfit values (`none` models NaN) and
the per-target normalizations. -/
structure EvalResult where
  x : List ℚ
  ms : List (Option ℚ)
  ns : List ℚ
  deriving DecidableEq, Repr

/-- The NaN mask of a misfit vector (`num.isnan(ms)`, core.py line 1001). -/
def nanMask (ms : List (Option ℚ)) : List Bool := ms.map Option.isNone

/-- The mutable state of one `solve` invocation that the claims observe:
the stored NaN mask (`isbad_mask`, `None` before the first iteration), the
sequence of records appended to the run directory by
`dump_problem_data`, and the chain ledger rows. -/
structure SolveState where
  isbad_mask : Option (List Bool)
  records : List EvalResult
  chains : List (List (ℚ × ℕ))
  deriving DecidableEq, Repr

/-- How one `solve` invocation ends: normally, or by one of the two
error-logging early returns of core.py lines 1002-1014. -/
inductive SolveOutcome where
  | completed
  | dataInconsistency
  | allNaN
  deriving DecidableEq, Repr

/-- The successor state of a non-aborting iteration: store the new NaN
mask, append the dump record, and insert the sample into every replica
ledger row under the global misfit `gm` and the bootstrap misfits `bm`
(core.py lines 1008, 1016-1031). -/
def okState (cap : ℕ) (gm : List (Option ℚ) → List ℚ → ℚ)
    (bm : List (Option ℚ) → List ℚ → List ℚ) (iiter : ℕ) (r : EvalResult)
    (st : SolveState) : SolveState :=
  { isbad_mask := some (nanMask r.ms)
    records := st.records ++ [r]
    chains := ledgerStep cap st.chains (gm r.ms r.ns :: bm r.ms r.ns) iiter }

/-- The body of one `solve` iteration after evaluation (core.py lines
999-1040): abort with an error if the NaN mask changed against the stored
one, store the mask, abort if every target misfit is NaN, otherwise dump
the point and update all ledgers. -/
def solveStep (cap : ℕ) (gm : List (Option ℚ) → List ℚ → ℚ)
    (bm : List (Option ℚ) → List ℚ → List ℚ) (iiter : ℕ) (r : EvalResult)
    (st : SolveState) : Except SolveOutcome SolveState :=
  if st.isbad_mask.isSome ∧ st.isbad_mask ≠ some (nanMask r.ms) then
    Except.error SolveOutcome.dataInconsistency
  else if (nanMask r.ms).all (fun b => b) then
    Except.error SolveOutcome.allNaN
  else
    Except.ok (okState cap gm bm iiter r st)

/-- The main loop of `solve` (core.py lines 934-1121), restricted to
evaluation, error handling, persistence and ledger bookkeeping; `evals` is
the oracle giving the outcome of `problem.evaluate` at each iteration.
Arguments: current iteration index, remaining iterations, state.  Returns
the final state, the outcome, and how many iterations called `evaluate`
(an aborting iteration evaluates but is not persisted). -/
def solveLoop (cap : ℕ) (gm : List (Option ℚ) → List ℚ → ℚ)
    (bm : List (Option ℚ) → List ℚ → List ℚ) (evals : ℕ → EvalResult) :
    ℕ → ℕ → SolveState → SolveState × SolveOutcome × ℕ
  | iiter, 0, st => (st, SolveOutcome.completed, iiter)
  | iiter, rem + 1, st =>
    match solveStep cap gm bm iiter (evals iiter) st with
    | Except.error o => (st, o, iiter + 1)
    | Except.ok st2 => solveLoop cap gm bm evals (iiter + 1) rem st2

/-- Initial state of `solve` (core.py lines 911-931): no stored NaN mask,
nothing dumped, `1 + nbootstrap` empty ledger rows. -/
def initState (nbootstrap : ℕ) : SolveState :=
  ⟨none, [], List.replicate (1 + nbootstrap) []⟩

/-- A full `solve` invocation over `niter` iterations. -/
def solveRun (cap : ℕ) (gm : List (Option ℚ) → List ℚ → ℚ)
    (bm : List (Option ℚ) → List ℚ → List ℚ) (evals : ℕ → EvalResult)
    (nbootstrap niter : ℕ) : SolveState × SolveOutcome × ℕ :=
  solveLoop cap gm bm evals 0 niter (initState nbootstrap)

/-- The state produced by `k` consecutive non-aborting iterations starting
at index `i`. -/
def stepsOk (cap : ℕ) (gm : List (Option ℚ) → List ℚ → ℚ)
    (bm : List (Option ℚ) → List ℚ → List ℚ) (evals : ℕ → EvalResult) :
    ℕ → ℕ → SolveState → SolveState
  | _, 0, st => st
  | i, k + 1, st =>
    stepsOk cap gm bm evals (i + 1) k (okState cap gm bm i (evals i) st)

lemma solveStep_ok (cap : ℕ) (gm : List (Option ℚ) → List ℚ → ℚ)
    (bm : List (Option ℚ) → List ℚ → List ℚ) (iiter : ℕ) (r : EvalResult)
    (st : SolveState)
    (hmask : st.isbad_mask = none ∨ st.isbad_mask = some (nanMask r.ms))
    (hnall : ¬(nanMask r.ms).all (fun b => b) = true) :
    solveStep cap gm bm iiter r st =
      Except.ok (okState cap gm bm iiter r st) := by
  rcases hmask with h | h <;>
    simp [solveStep, h, hnall]

lemma solveStep_inconsistency (cap : ℕ)
    (gm : List (Option ℚ) → List ℚ → ℚ)
    (bm : List (Option ℚ) → List ℚ → List ℚ) (iiter : ℕ) (r : EvalResult)
    (st : SolveState) (M : List Bool) (h1 : st.isbad_mask = some M)
    (h2 : M ≠ nanMask r.ms) :
    solveStep cap gm bm iiter r st =
      Except.error SolveOutcome.dataInconsistency := by
  simp [solveStep, h1, h2]

lemma solveStep_allNaN (cap : ℕ) (gm : List (Option ℚ) → List ℚ → ℚ)
    (bm : List (Option ℚ) → List ℚ → List ℚ) (iiter : ℕ) (r : EvalResult)
    (st : SolveState)
    (hmask : st.isbad_mask = none ∨ st.isbad_mask = some (nanMask r.ms))
    (hall : (nanMask r.ms).all (fun b => b) = true) :
    solveStep cap gm bm iiter r st = Except.error SolveOutcome.allNaN := by
  rcases hmask with h | h <;>
    simp [solveStep, h, hall]

lemma solveLoop_abort (cap : ℕ) (gm : List (Option ℚ) → List ℚ → ℚ)
    (bm : List (Option ℚ) → List ℚ → List ℚ) (evals : ℕ → EvalResult)
    (M : List Bool) :
    ∀ (k i rem : ℕ) (st : SolveState), k < rem →
      st.isbad_mask = some M →
      (∀ j, j < k → nanMask (evals (i + j)).ms = M ∧
        ¬(nanMask (evals (i + j)).ms).all (fun b => b) = true) →
      (nanMask (evals (i + k)).ms ≠ M ∨
        (nanMask (evals (i + k)).ms).all (fun b => b) = true) →
      solveLoop cap gm bm evals i rem st =
        (stepsOk cap gm bm evals i k st,
         (if nanMask (evals (i + k)).ms ≠ M then
            SolveOutcome.dataInconsistency
          else SolveOutcome.allNaN),
         i + k + 1) := by
  intro k
  induction k with
  | zero =>
    intro i rem st hrem hM _ hfail
    obtain ⟨rem2, rfl⟩ : ∃ rem2, rem = rem2 + 1 := ⟨rem - 1, by omega⟩
    rw [solveLoop]
    by_cases hne : nanMask (evals (i + 0)).ms ≠ M
    · rw [Nat.add_zero] at hne
      rw [solveStep_inconsistency cap gm bm i (evals i) st M hM
        (fun hcon => hne hcon.symm)]
      simp [stepsOk, hne]
    · push_neg at hne
      have hall : (nanMask (evals (i + 0)).ms).all (fun b => b) = true := by
        rcases hfail with hcon | h
        · rw [Nat.add_zero] at hcon hne; exact absurd hne (by simpa using hcon)
        · exact h
      rw [Nat.add_zero] at hne hall
      rw [solveStep_allNaN cap gm bm i (evals i) st (Or.inr (by rw [hM, hne]))
        hall]
      simp [stepsOk, hne]
  | succ k1 ih =>
    intro i rem st hrem hM hpre hfail
    obtain ⟨rem2, rfl⟩ : ∃ rem2, rem = rem2 + 1 := ⟨rem - 1, by omega⟩
    have h0 := hpre 0 (Nat.succ_pos k1)
    rw [Nat.add_zero] at h0
    rw [solveLoop, solveStep_ok cap gm bm i (evals i) st
      (Or.inr (by rw [hM, h0.1])) h0.2]
    have hpre2 : ∀ j, j < k1 → nanMask (evals (i + 1 + j)).ms = M ∧
        ¬(nanMask (evals (i + 1 + j)).ms).all (fun b => b) = true := by
      intro j hj
      have := hpre (j + 1) (by omega)
      rwa [show i + (j + 1) = i + 1 + j by omega] at this
    have hfail2 : nanMask (evals (i + 1 + k1)).ms ≠ M ∨
        (nanMask (evals (i + 1 + k1)).ms).all (fun b => b) = true := by
      rwa [show i + (k1 + 1) = i + 1 + k1 by omega] at hfail
    have := ih (i + 1) rem2 (okState cap gm bm i (evals i) st) (by omega)
      (by simp [okState, h0.1]) hpre2 hfail2
    show solveLoop cap gm bm evals (i + 1) rem2
        (okState cap gm bm i (evals i) st) = _
    rw [this]
    rw [show i + 1 + k1 = i + (k1 + 1) by omega]
    rfl

lemma stepsOk_records (cap : ℕ) (gm : List (Option ℚ) → List ℚ → ℚ)
    (bm : List (Option ℚ) → List ℚ → List ℚ) (evals : ℕ → EvalResult) :
    ∀ (k i : ℕ) (st : SolveState),
      (stepsOk cap gm bm evals i k st).records =
        st.records ++ (List.range k).map (fun j => evals (i + j)) := by
  intro k
  induction k with
  | zero => intro i st; simp [stepsOk]
  | succ k1 ih =>
    intro i st
    rw [stepsOk, ih]
    rw [List.range_succ_eq_map, List.map_cons, List.map_map]
    simp only [okState, List.append_assoc, List.singleton_append,
      Nat.add_zero]
    congr 2
    refine List.map_congr_left ?_
    intro j _
    simp only [Function.comp]
    congr 1
    omega

lemma solveRun_abort (cap : ℕ) (gm : List (Option ℚ) → List ℚ → ℚ)
    (bm : List (Option ℚ) → List ℚ → List ℚ) (evals : ℕ → EvalResult)
    (nbootstrap niter k : ℕ) (hk : k < niter)
    (hpre : ∀ j, j < k → nanMask (evals j).ms = nanMask (evals 0).ms ∧
      ¬(nanMask (evals j).ms).all (fun b => b) = true)
    (hfail : nanMask (evals k).ms ≠ nanMask (evals 0).ms ∨
      (nanMask (evals k).ms).all (fun b => b) = true) :
    solveRun cap gm bm evals nbootstrap niter =
      (stepsOk cap gm bm evals 0 k (initState nbootstrap),
       (if nanMask (evals k).ms ≠ nanMask (evals 0).ms then
          SolveOutcome.dataInconsistency
        else SolveOutcome.allNaN),
       k + 1) := by
  cases k with
  | zero =>
    have hall : (nanMask (evals 0).ms).all (fun b => b) = true := by
      rcases hfail with hcon | h
      · exact absurd rfl hcon
      · exact h
    obtain ⟨rem2, rfl⟩ : ∃ rem2, niter = rem2 + 1 := ⟨niter - 1, by omega⟩
    rw [solveRun, solveLoop, solveStep_allNaN cap gm bm 0 (evals 0)
      (initState nbootstrap) (Or.inl rfl) hall]
    rw [if_neg (fun hcon => hcon rfl)]
    rfl
  | succ k1 =>
    have h0 := hpre 0 (Nat.succ_pos k1)
    obtain ⟨rem2, rfl⟩ : ∃ rem2, niter = rem2 + 1 := ⟨niter - 1, by omega⟩
    rw [solveRun, solveLoop, solveStep_ok cap gm bm 0 (evals 0)
      (initState nbootstrap) (Or.inl rfl) h0.2]
    have habort := solveLoop_abort cap gm bm evals (nanMask (evals 0).ms) k1 1
      rem2 (okState cap gm bm 0 (evals 0) (initState nbootstrap)) (by omega)
      (by simp [okState])
      (fun j hj => by
        have h2 := hpre (j + 1) (by omega)
        rwa [show 1 + j = j + 1 by omega])
      (by rwa [show 1 + k1 = k1 + 1 by omega])
    show solveLoop cap gm bm evals 1 rem2
        (okState cap gm bm 0 (evals 0) (initState nbootstrap)) = _
    rw [habort, show 1 + k1 = k1 + 1 by omega]
    rfl

lemma chains_invariant_step (cap : ℕ) (chains : List (List (ℚ × ℕ)))
    (ms : List ℚ) (iiter : ℕ)
    (h : ∀ row ∈ chains, row.length < cap ∧ List.Sorted misfitLE row) :
    ∀ row ∈ ledgerStep cap chains ms iiter,
      row.length < cap ∧ List.Sorted misfitLE row := by
  intro row hrow
  rw [ledgerStep, List.mem_map] at hrow
  obtain ⟨p, hp, hrow⟩ := hrow
  subst hrow
  exact ⟨length_insertChain_lt _ _ _ _ (h p.1 (List.of_mem_zip hp).1).1,
    sorted_insertChain _ _ _ _⟩

lemma solveLoop_chains_invariant (cap : ℕ)
    (gm : List (Option ℚ) → List ℚ → ℚ)
    (bm : List (Option ℚ) → List ℚ → List ℚ) (evals : ℕ → EvalResult) :
    ∀ (rem i : ℕ) (st : SolveState),
      (∀ row ∈ st.chains, row.length < cap ∧ List.Sorted misfitLE row) →
      ∀ row ∈ (solveLoop cap gm bm evals i rem st).1.chains,
        row.length < cap ∧ List.Sorted misfitLE row := by
  intro rem
  induction rem with
  | zero => intro i st h; exact h
  | succ rem ih =>
    intro i st h
    rw [solveLoop]
    cases hstep : solveStep cap gm bm i (evals i) st with
    | error o => exact h
    | ok st2 =>
      have hst2 : st2 = okState cap gm bm i (evals i) st := by
        rw [solveStep] at hstep
        split_ifs at hstep <;> injection hstep with h2 <;> exact h2.symm
      have hinv : ∀ row ∈ st2.chains,
          row.length < cap ∧ List.Sorted misfitLE row := by
        rw [hst2]
        exact chains_invariant_step cap st.chains _ i h
      exact ih (i + 1) st2 hinv

lemma initState_chains_invariant (cap nbootstrap : ℕ) (hcap : 0 < cap) :
    ∀ row ∈ (initState nbootstrap).chains,
      row.length < cap ∧ List.Sorted misfitLE row := by
  intro row hrow
  rw [initState] at hrow
  have := List.eq_of_mem_replicate hrow
  subst this
  exact ⟨by simpa using hcap, List.sorted_nil⟩

/-- Claim C2: the chain ledger keeps at most `nlinks_cap = 8 * npar + 1`
entries per replica at every point of a solve run, each replica row stays
sorted ascending by misfit after every insertion, an insertion into a full
row evicts exactly an entry carrying the largest misfit of that row (the
remaining entries are a permutation of the rest), and the update of each
replica row depends only on that row and its own misfit value, leaving
every other replica row determined by its own entries alone. -/
theorem chain_ledger_invariants (npar : ℕ) (chain : List (ℚ × ℕ)) (m : ℚ)
    (iiter : ℕ) (chains : List (List (ℚ × ℕ))) (ms : List ℚ)
    (gm : List (Option ℚ) → List ℚ → ℚ)
    (bm : List (Option ℚ) → List ℚ → List ℚ) (evals : ℕ → EvalResult)
    (nbootstrap niter : ℕ) (hlen : chain.length < nlinks_cap npar) :
    List.Sorted misfitLE (insertChain (nlinks_cap npar) chain m iiter) ∧
    (insertChain (nlinks_cap npar) chain m iiter).length ≤ nlinks_cap npar ∧
    (chain.length + 1 = nlinks_cap npar →
      ∃ e, (chain ++ [(m, iiter)]).Perm
          (insertChain (nlinks_cap npar) chain m iiter ++ [e]) ∧
        ∀ p ∈ chain ++ [(m, iiter)], misfitLE p e) ∧
    (∀ j, j < chains.length → j < ms.length →
      (ledgerStep (nlinks_cap npar) chains ms iiter).getD j [] =
        insertChain (nlinks_cap npar) (chains.getD j []) (ms.getD j 0)
          iiter) ∧
    (∀ row ∈
        (solveRun (nlinks_cap npar) gm bm evals nbootstrap niter).1.chains,
      row.length ≤ nlinks_cap npar ∧ List.Sorted misfitLE row) := by
  refine ⟨sorted_insertChain _ _ _ _,
    Nat.le_of_lt (length_insertChain_lt _ _ _ _ hlen),
    insertChain_evicts _ _ _ _,
    fun j hj hm => ledgerStep_getD _ _ _ _ _ hj hm, ?_⟩
  intro row hrow
  have hcap : 0 < nlinks_cap npar := Nat.succ_pos _
  have := solveLoop_chains_invariant (nlinks_cap npar) gm bm evals niter 0
    (initState nbootstrap)
    (initState_chains_invariant (nlinks_cap npar) nbootstrap hcap) row hrow
  exact ⟨Nat.le_of_lt this.1, this.2⟩

/-- Concrete instantiation of `chain_ledger_invariants` with `npar = 0`
(capacity 1), an empty row, one replica row with one misfit, and a
two-iteration run with one bootstrap replica. -/
theorem chain_ledger_invariants_witness :
    List.Sorted misfitLE (insertChain (nlinks_cap 0) [] 5 0) ∧
    (insertChain (nlinks_cap 0) [] 5 0).length ≤ nlinks_cap 0 ∧
    (List.length ([] : List (ℚ × ℕ)) + 1 = nlinks_cap 0 →
      ∃ e, (([] : List (ℚ × ℕ)) ++ [((5 : ℚ), 0)]).Perm
          (insertChain (nlinks_cap 0) [] 5 0 ++ [e]) ∧
        ∀ p ∈ ([] : List (ℚ × ℕ)) ++ [((5 : ℚ), 0)], misfitLE p e) ∧
    (∀ j, j < List.length [([] : List (ℚ × ℕ))] → j < List.length [(3 : ℚ)] →
      (ledgerStep (nlinks_cap 0) [[]] [3] 0).getD j [] =
        insertChain (nlinks_cap 0) ([[]].getD j []) ([(3 : ℚ)].getD j 0)
          0) ∧
    (∀ row ∈
        (solveRun (nlinks_cap 0) (fun _ _ => 0) (fun _ _ => [0])
          (fun _ => ⟨[0], [some 1], [1]⟩) 1 2).1.chains,
      row.length ≤ nlinks_cap 0 ∧ List.Sorted misfitLE row) :=
  chain_ledger_invariants 0 [] 5 0 [[]] [3] (fun _ _ => 0) (fun _ _ => [0])
    (fun _ => ⟨[0], [some 1], [1]⟩) 1 2 (by decide)

/-- Claim C4: if at some iteration `k` within the budget the NaN mask of
the misfit vector differs from the mask of the first iteration (all
earlier masks agreeing with it and not being all-NaN), or every target
misfit at iteration `k` is NaN, then `solve` ends with one of the two
logged-error outcomes — returned as a value to the caller, not an
exception — after exactly `k + 1` evaluations, performing none of the
remaining budgeted iterations. -/
theorem solve_aborts_on_nan_inconsistency (cap : ℕ)
    (gm : List (Option ℚ) → List ℚ → ℚ)
    (bm : List (Option ℚ) → List ℚ → List ℚ) (evals : ℕ → EvalResult)
    (nbootstrap niter k : ℕ) (hk : k < niter)
    (hpre : ∀ j, j < k → nanMask (evals j).ms = nanMask (evals 0).ms ∧
      ¬(nanMask (evals j).ms).all (fun b => b) = true)
    (hfail : nanMask (evals k).ms ≠ nanMask (evals 0).ms ∨
      (nanMask (evals k).ms).all (fun b => b) = true) :
    ((solveRun cap gm bm evals nbootstrap niter).2.1 =
        SolveOutcome.dataInconsistency ∨
      (solveRun cap gm bm evals nbootstrap niter).2.1 =
        SolveOutcome.allNaN) ∧
    (solveRun cap gm bm evals nbootstrap niter).2.2 = k + 1 := by
  rw [solveRun_abort cap gm bm evals nbootstrap niter k hk hpre hfail]
  refine ⟨?_, rfl⟩
  by_cases h : nanMask (evals k).ms ≠ nanMask (evals 0).ms
  · left; simp [h]
  · right; simp [h]

/-- Concrete instantiation of `solve_aborts_on_nan_inconsistency`: two
targets, mask `[false, true]` at iteration 0, mask `[true, false]` at
iteration 1, budget 3: the run ends after 2 evaluations with the
data-inconsistency outcome. -/
theorem solve_aborts_on_nan_inconsistency_witness :
    ((solveRun 1 (fun _ _ => 0) (fun _ _ => [0])
        (fun i => if i = 0 then ⟨[0], [some 1, none], [1, 1]⟩
          else ⟨[0], [none, some 1], [1, 1]⟩) 1 3).2.1 =
        SolveOutcome.dataInconsistency ∨
      (solveRun 1 (fun _ _ => 0) (fun _ _ => [0])
        (fun i => if i = 0 then ⟨[0], [some 1, none], [1, 1]⟩
          else ⟨[0], [none, some 1], [1, 1]⟩) 1 3).2.1 =
        SolveOutcome.allNaN) ∧
    (solveRun 1 (fun _ _ => 0) (fun _ _ => [0])
      (fun i => if i = 0 then ⟨[0], [some 1, none], [1, 1]⟩
        else ⟨[0], [none, some 1], [1, 1]⟩) 1 3).2.2 = 2 :=
  solve_aborts_on_nan_inconsistency 1 (fun _ _ => 0) (fun _ _ => [0])
    (fun i => if i = 0 then ⟨[0], [some 1, none], [1, 1]⟩
      else ⟨[0], [none, some 1], [1, 1]⟩) 1 3 1 (by norm_num)
    (by decide) (by decide)

/-- Claim C10: when the run aborts at iteration `k` (NaN-mask change or
all-NaN), the aborting candidate is not persisted: the final state is
exactly the state built from the `k` non-aborting iterations, and the
dump-record sequence lists precisely the evaluations of iterations
`0..k-1` in order — nothing of iteration `k` reaches the files or the
ledgers. -/
theorem abort_leaves_no_trace (cap : ℕ)
    (gm : List (Option ℚ) → List ℚ → ℚ)
    (bm : List (Option ℚ) → List ℚ → List ℚ) (evals : ℕ → EvalResult)
    (nbootstrap niter k : ℕ) (hk : k < niter)
    (hpre : ∀ j, j < k → nanMask (evals j).ms = nanMask (evals 0).ms ∧
      ¬(nanMask (evals j).ms).all (fun b => b) = true)
    (hfail : nanMask (evals k).ms ≠ nanMask (evals 0).ms ∨
      (nanMask (evals k).ms).all (fun b => b) = true) :
    (solveRun cap gm bm evals nbootstrap niter).1 =
      stepsOk cap gm bm evals 0 k (initState nbootstrap) ∧
    (solveRun cap gm bm evals nbootstrap niter).1.records =
      (List.range k).map (fun j => evals j) := by
  rw [solveRun_abort cap gm bm evals nbootstrap niter k hk hpre hfail]
  refine ⟨rfl, ?_⟩
  show (stepsOk cap gm bm evals 0 k (initState nbootstrap)).records = _
  rw [stepsOk_records]
  simp [initState]

/-- Concrete instantiation of `abort_leaves_no_trace`: with the mask
change at iteration 1, only the iteration-0 record is persisted. -/
theorem abort_leaves_no_trace_witness :
    (solveRun 1 (fun _ _ => 0) (fun _ _ => [1])
        (fun i => if i = 0 then ⟨[2], [some 1, none], [1, 1]⟩
          else ⟨[2], [none, some 1], [1, 1]⟩) 1 3).1 =
      stepsOk 1 (fun _ _ => 0) (fun _ _ => [1])
        (fun i => if i = 0 then ⟨[2], [some 1, none], [1, 1]⟩
          else ⟨[2], [none, some 1], [1, 1]⟩) 0 1 (initState 1) ∧
    (solveRun 1 (fun _ _ => 0) (fun _ _ => [1])
        (fun i => if i = 0 then ⟨[2], [some 1, none], [1, 1]⟩
          else ⟨[2], [none, some 1], [1, 1]⟩) 1 3).1.records =
      (List.range 1).map (fun j =>
        (fun i => if i = 0 then (⟨[2], [some 1, none], [1, 1]⟩ : EvalResult)
          else ⟨[2], [none, some 1], [1, 1]⟩) j) :=
  abort_leaves_no_trace 1 (fun _ _ => 0) (fun _ _ => [1])
    (fun i => if i = 0 then ⟨[2], [some 1, none], [1, 1]⟩
      else ⟨[2], [none, some 1], [1, 1]⟩) 1 3 1 (by norm_num)
    (by decide) (by decide)

/-! ### Candidate bounds (core.py lines 950-997, 1047) -/

/-- A vector lies within the per-parameter bounds
(`xbounds[:, 0] <= v` and `v <= xbounds[:, 1]` elementwise, with matching
length). -/
def InBounds (xbounds : List (ℚ × ℚ)) (x : List ℚ) : Prop :=
  List.Forall₂ (fun b v => b.1 ≤ v ∧ v ≤ b.2) xbounds x

/-- The inner multivariate-normal retry loop (core.py lines 970-977): the
vector handed on is the first draw of the oracle stream satisfying the
bounds check `num.all(xbounds[:, 0] <= vs) and num.all(vs <= xbounds[:, 1])`. -/
def mvnDrawAccepted (xbounds : List (ℚ × ℚ)) (draws : ℕ → List ℚ)
    (v : List ℚ) : Prop :=
  ∃ k, InBounds xbounds (draws k) ∧
    (∀ j, j < k → ¬InBounds xbounds (draws j)) ∧ v = draws k

/-- The outer proposal retry loop (core.py lines 950-997): `pre` models
`problem.preconstrain`, returning `none` where the Python raises
`Forbidden`; `cands` is the stream of raw candidate vectors produced by
the active sampling branch at successive attempts.  The vector written
into the sample history (core.py line 1047, non-injected case) is the
first `preconstrain` output along the stream. -/
def proposalAccepted (pre : List ℚ → Option (List ℚ))
    (cands : ℕ → List ℚ) (x : List ℚ) : Prop :=
  ∃ k, pre (cands k) = some x ∧ ∀ j, j < k → pre (cands j) = none

/-- Claim C9: under the precondition that `preconstrain` either rejects a
candidate (raises `Forbidden`) or returns a vector satisfying the declared
bounds, every accepted non-injected candidate lies within
`[xbounds i 0, xbounds i 1]` in every component; moreover the vector the
multivariate-normal branch hands to `preconstrain` already satisfies the
bounds by construction of its inner retry loop. -/
theorem accepted_candidates_in_bounds (xbounds : List (ℚ × ℚ))
    (pre : List ℚ → Option (List ℚ)) (cands : ℕ → List ℚ)
    (draws : ℕ → List ℚ) (x v : List ℚ)
    (hpre : ∀ y z, pre y = some z → InBounds xbounds z) :
    (proposalAccepted pre cands x → InBounds xbounds x) ∧
    (mvnDrawAccepted xbounds draws v → InBounds xbounds v) := by
  constructor
  · rintro ⟨k, hk, -⟩
    exact hpre _ _ hk
  · rintro ⟨k, hk, -, rfl⟩
    exact hk

/-- Concrete instantiation of `accepted_candidates_in_bounds` with a
single parameter bounded by `[0, 1]` and a preconstrain that accepts
exactly the vector `[1/2]`. -/
theorem accepted_candidates_in_bounds_witness :
    (proposalAccepted
        (fun y => if y = [(1 : ℚ) / 2] then some [(1 : ℚ) / 2] else none)
        (fun _ => [(1 : ℚ) / 2]) [(1 : ℚ) / 2] →
      InBounds [((0 : ℚ), (1 : ℚ))] [(1 : ℚ) / 2]) ∧
    (mvnDrawAccepted [((0 : ℚ), (1 : ℚ))] (fun _ => [(1 : ℚ) / 2])
        [(1 : ℚ) / 2] →
      InBounds [((0 : ℚ), (1 : ℚ))] [(1 : ℚ) / 2]) :=
  accepted_candidates_in_bounds [((0 : ℚ), (1 : ℚ))]
    (fun y => if y = [(1 : ℚ) / 2] then some [(1 : ℚ) / 2] else none)
    (fun _ => [(1 : ℚ) / 2]) (fun _ => [(1 : ℚ) / 2]) [(1 : ℚ) / 2]
    [(1 : ℚ) / 2]
    (by
      intro y z h
      dsimp only at h
      split_ifs at h
      injection h with h2
      subst h2
      exact List.Forall₂.cons (by norm_num) List.Forall₂.nil)

/-! ### Harvest weeding (core.py lines 1176-1227) -/

/-- Ordering of `enum` pairs (index, value) by value, for `num.argsort`. -/
def idxValLE (a b : ℕ × ℚ) : Prop := a.2 ≤ b.2

instance : DecidableRel idxValLE :=
  fun a b => inferInstanceAs (Decidable (a.2 ≤ b.2))

instance : IsTotal (ℕ × ℚ) idxValLE := ⟨fun a b => le_total a.2 b.2⟩

instance : IsTrans (ℕ × ℚ) idxValLE :=
  ⟨fun _ _ _ hab hbc => le_trans hab hbc⟩

/-- `num.argsort`: the indices of `l` sorted ascending by value (stable
resolution of ties). -/
def argsortL (l : List ℚ) : List ℕ :=
  (List.insertionSort idxValLE l.enum).map (fun p => p.1)

/-- Indexing into the global-misfit vector (`gms[i]`). -/
def gmsAt (gms : List ℚ) (i : ℕ) : ℚ := gms.getD i 0

/-- `num.median`: the middle element of the sorted values, or the mean of
the two middle elements for even length. -/
def medianL (l : List ℚ) : ℚ :=
  let s := List.insertionSort (fun a b : ℚ => a ≤ b) l
  if l.length % 2 = 1 then s.getD (l.length / 2) 0
  else (s.getD (l.length / 2 - 1) 0 + s.getD (l.length / 2) 0) / 2

/-- Mean of a list of rationals. -/
def meanL (l : List ℚ) : ℚ := l.sum / l.length

/-- The square of `num.std`: the population variance, mean of squared
deviations from the mean. -/
def varL (l : List ℚ) : ℚ :=
  ((l.map (fun x => (x - meanL l) ^ 2)).sum) / l.length

/-- Decidable encoding of the floating comparison
`g > m + std` with `std = sqrt var`: for `var ≥ 0` it is equivalent to
`m < g` together with `var < (g - m) ^ 2` (lemma `exceedsB_iff_sqrt`). -/
def exceedsB (g m var : ℚ) : Bool :=
  decide (m < g) && decide (var < (g - m) ^ 2)

lemma exceedsB_iff_sqrt (g m var : ℚ) (hv : 0 ≤ var) :
    exceedsB g m var = true ↔ (m : ℝ) + Real.sqrt (var : ℝ) < (g : ℝ) := by
  rw [exceedsB, Bool.and_eq_true, decide_eq_true_eq, decide_eq_true_eq]
  have hvr : (0 : ℝ) ≤ (var : ℝ) := by exact_mod_cast hv
  constructor
  · rintro ⟨h1, h2⟩
    have h1r : (m : ℝ) < (g : ℝ) := by exact_mod_cast h1
    have h2r : (var : ℝ) < ((g : ℝ) - (m : ℝ)) ^ 2 := by
      have : ((var : ℚ) : ℝ) < (((g - m) ^ 2 : ℚ) : ℝ) := by exact_mod_cast h2
      push_cast at this
      linarith
    have hgm : (0 : ℝ) ≤ (g : ℝ) - (m : ℝ) := by linarith
    have := Real.sqrt_lt_sqrt hvr h2r
    rw [Real.sqrt_sq hgm] at this
    linarith
  · intro h
    have hs := Real.sqrt_nonneg (var : ℝ)
    have h1r : (m : ℝ) < (g : ℝ) := by linarith
    refine ⟨by exact_mod_cast h1r, ?_⟩
    have h3 : Real.sqrt (var : ℝ) < (g : ℝ) - (m : ℝ) := by linarith
    have h4 : (var : ℝ) < ((g : ℝ) - (m : ℝ)) ^ 2 := by
      nlinarith [Real.sq_sqrt hvr, Real.sqrt_nonneg (var : ℝ)]
    have : ((var : ℚ) : ℝ) < (((g - m) ^ 2 : ℚ) : ℝ) := by push_cast; linarith
    exact_mod_cast this

/-- The per-replica and global nbest index lists (`ibests_list`, core.py
lines 1192-1203): for each bootstrap replica the `nbest` indices of lowest
bootstrap misfit, followed by the `nbest` indices of lowest global
misfit. -/
def harvest_ibests_list (nbest : ℕ) (gms : List ℚ) (bmss : List (List ℚ)) :
    List (List ℕ) :=
  bmss.map (fun bms => (argsortL bms).take nbest) ++
    [(argsortL gms).take nbest]

/-- The per-replica best indices (`ibests`, core.py lines 1194-1198):
`isort[0]` of each replica. -/
def harvest_ibests (bmss : List (List ℚ)) : List ℕ :=
  bmss.map (fun bms => (argsortL bms).headD 0)

/-- `mean_gm_best` of core.py line 1206 — despite its name the source
computes `num.median(gms[ibests])`. -/
def mean_gm_best (gms : List ℚ) (bmss : List (List ℚ)) : ℚ :=
  medianL ((harvest_ibests bmss).map (gmsAt gms))

/-- The square of `std_gm_best` of core.py line 1207
(`num.std(gms[ibests])`). -/
def std2_gm_best (gms : List ℚ) (bmss : List (List ℚ)) : ℚ :=
  varL ((harvest_ibests bmss).map (gmsAt gms))

/-- Whether position `j` of `ibests_list` survives the weeding of core.py
lines 1208-1216: `j` is dropped exactly when it indexes a bootstrap
replica (`j < len(ibests)`) whose best global misfit exceeds
`mean_gm_best + std_gm_best`. -/
def harvestKeep (gms : List ℚ) (bmss : List (List ℚ)) (j : ℕ) : Bool :=
  !(decide (j < (harvest_ibests bmss).length) &&
    exceedsB (gmsAt gms ((harvest_ibests bmss).getD j 0))
      (mean_gm_best gms bmss) (std2_gm_best gms bmss))

/-- The concatenation of the nbest lists surviving the weeding
(`num.concatenate(ibests_list)` after the filter of core.py lines
1214-1216). -/
def harvestPool (nbest : ℕ) (gms : List ℚ) (bmss : List (List ℚ)) :
    List ℕ :=
  (((List.range (harvest_ibests_list nbest gms bmss).length).filter
      (harvestKeep gms bmss)).map
    (fun j => (harvest_ibests_list nbest gms bmss).getD j [])).flatten

/-- The index selection of `harvest` (core.py lines 1192-1221): the
concatenated surviving nbest lists; with `weed == 0` no weeding happens,
with `weed == 2` the concatenated pool is further filtered to indices
whose global misfit is strictly below `mean_gm_best` (core.py lines
1220-1221). -/
def harvestSelect (nbest weedMode : ℕ) (gms : List ℚ)
    (bmss : List (List ℚ)) : List ℕ :=
  if weedMode = 0 then (harvest_ibests_list nbest gms bmss).flatten
  else if weedMode = 2 then
    (harvestPool nbest gms bmss).filter
      (fun i => decide (gmsAt gms i < mean_gm_best gms bmss))
  else harvestPool nbest gms bmss

lemma getD_map_of_lt {α β : Type _} (f : α → β) (d : β) (d2 : α) :
    ∀ (l : List α) (j : ℕ), j < l.length →
      (l.map f).getD j d = f (l.getD j d2) := by
  intro l
  induction l with
  | nil => intro j hj; simp at hj
  | cons a l ih =>
    intro j hj
    cases j with
    | zero => rfl
    | succ j => exact ih j (by simpa using hj)

lemma harvestSelect_one (nbest : ℕ) (gms : List ℚ)
    (bmss : List (List ℚ)) :
    harvestSelect nbest 1 gms bmss = harvestPool nbest gms bmss := by
  rw [harvestSelect]
  norm_num

lemma harvestSelect_two (nbest : ℕ) (gms : List ℚ)
    (bmss : List (List ℚ)) :
    harvestSelect nbest 2 gms bmss =
      (harvestPool nbest gms bmss).filter
        (fun i => decide (gmsAt gms i < mean_gm_best gms bmss)) := by
  rw [harvestSelect]
  norm_num

lemma mem_harvestPool (nbest : ℕ) (gms : List ℚ) (bmss : List (List ℚ))
    (i : ℕ) :
    i ∈ harvestPool nbest gms bmss ↔
      ∃ j, j < (harvest_ibests_list nbest gms bmss).length ∧
        harvestKeep gms bmss j = true ∧
        i ∈ (harvest_ibests_list nbest gms bmss).getD j [] := by
  rw [harvestPool]
  constructor
  · intro hmem
    rw [List.mem_flatten] at hmem
    obtain ⟨l, hl, hil⟩ := hmem
    rw [List.mem_map] at hl
    obtain ⟨j, hj, hjl⟩ := hl
    rw [List.mem_filter, List.mem_range] at hj
    exact ⟨j, hj.1, hj.2, hjl ▸ hil⟩
  · rintro ⟨j, hj, hkeep, hmem⟩
    rw [List.mem_flatten]
    refine ⟨(harvest_ibests_list nbest gms bmss).getD j [], ?_, hmem⟩
    rw [List.mem_map]
    exact ⟨j, by rw [List.mem_filter, List.mem_range]; exact ⟨hj, hkeep⟩,
      rfl⟩

/-- Claim C8, amended: with weeding on, a bootstrap replica nbest-list is
discarded exactly when the global misfit of its best point exceeds
median + std of the per-replica bests (encoded by `exceedsB` over the
variance, see `exceedsB_iff_sqrt`), while the global nbest-list always
survives; and with `weed == 2` the combined pool is additionally filtered
keeping exactly those points whose global misfit is strictly below the
median of the per-replica bests alone — the standard deviation is not
added in this second filter. -/
theorem harvest_weeding (nbest : ℕ) (gms : List ℚ)
    (bmss : List (List ℚ)) :
    (∀ i : ℕ, i ∈ harvestSelect nbest 1 gms bmss ↔
      ((∃ j, j < bmss.length ∧
          exceedsB (gmsAt gms ((harvest_ibests bmss).getD j 0))
            (mean_gm_best gms bmss) (std2_gm_best gms bmss) = false ∧
          i ∈ (argsortL (bmss.getD j [])).take nbest) ∨
        i ∈ (argsortL gms).take nbest)) ∧
    (∀ i : ℕ, i ∈ harvestSelect nbest 2 gms bmss ↔
      (i ∈ harvestSelect nbest 1 gms bmss ∧
        gmsAt gms i < mean_gm_best gms bmss)) := by
  have hLlen : (harvest_ibests_list nbest gms bmss).length =
      bmss.length + 1 := by
    simp [harvest_ibests_list]
  have hIlen : (harvest_ibests bmss).length = bmss.length := by
    simp [harvest_ibests]
  have hmaplen : (bmss.map (fun bms => (argsortL bms).take nbest)).length =
      bmss.length := by simp
  have hgetD_last : (harvest_ibests_list nbest gms bmss).getD bmss.length
      [] = (argsortL gms).take nbest := by
    rw [harvest_ibests_list, List.getD_append_right _ _ _ _ (by omega),
      hmaplen]
    simp
  have hgetD_lt : ∀ j, j < bmss.length →
      (harvest_ibests_list nbest gms bmss).getD j [] =
        (argsortL (bmss.getD j [])).take nbest := by
    intro j hj
    rw [harvest_ibests_list, List.getD_append _ _ _ _ (by omega),
      getD_map_of_lt _ _ ([] : List ℚ) _ _ hj]
  have hkeep_last : harvestKeep gms bmss bmss.length = true := by
    rw [harvestKeep, hIlen]
    simp
  have hkeep_lt : ∀ j, j < bmss.length →
      (harvestKeep gms bmss j = true ↔
        exceedsB (gmsAt gms ((harvest_ibests bmss).getD j 0))
          (mean_gm_best gms bmss) (std2_gm_best gms bmss) = false) := by
    intro j hj
    rw [harvestKeep]
    simp [hIlen, hj]
  constructor
  · intro i
    rw [harvestSelect_one, mem_harvestPool]
    constructor
    · rintro ⟨j, hj, hkeep, hmem⟩
      rw [hLlen] at hj
      rcases Nat.lt_succ_iff_lt_or_eq.mp hj with hlt | rfl
      · exact Or.inl ⟨j, hlt, (hkeep_lt j hlt).mp hkeep,
          by rwa [hgetD_lt j hlt] at hmem⟩
      · exact Or.inr (by rwa [hgetD_last] at hmem)
    · rintro (⟨j, hjL, hex, hmem⟩ | hmem)
      · exact ⟨j, by omega, (hkeep_lt j hjL).mpr hex,
          by rwa [hgetD_lt j hjL]⟩
      · exact ⟨bmss.length, by omega, hkeep_last, by rwa [hgetD_last]⟩
  · intro i
    rw [harvestSelect_two, harvestSelect_one, List.mem_filter,
      decide_eq_true_eq]

/-- Claim C8, counterexample: global misfits `[0, 2, 3/2, 10]`, two
bootstrap replicas whose best points are indices 0 and 1, `nbest = 2`,
`weed = 2`.  The per-replica bests have global misfits `[0, 2]`: median 1,
std 1, so the median + std threshold is 2.  Index 2 (misfit `3/2`)
survives replica weeding (it is in the weed = 1 pool) and lies strictly
below median + std, so under the claim it would be kept by the `weed == 2`
filter; the code filters by the median alone and drops it. -/
theorem harvest_weed2_median_only :
    harvestSelect 2 2 [0, 2, 3 / 2, 10] [[0, 5, 5, 5], [5, 0, 5, 5]] =
      [0, 0, 0] ∧
    harvestSelect 2 1 [0, 2, 3 / 2, 10] [[0, 5, 5, 5], [5, 0, 5, 5]] =
      [0, 1, 1, 0, 0, 2] ∧
    mean_gm_best [0, 2, 3 / 2, 10] [[0, 5, 5, 5], [5, 0, 5, 5]] = 1 ∧
    std2_gm_best [0, 2, 3 / 2, 10] [[0, 5, 5, 5], [5, 0, 5, 5]] = 1 ∧
    gmsAt [0, 2, 3 / 2, 10] 2 = 3 / 2 ∧
    ((3 : ℚ) / 2 < 1 + 1) ∧
    (2 : ℕ) ∉
      harvestSelect 2 2 [0, 2, 3 / 2, 10] [[0, 5, 5, 5], [5, 0, 5, 5]] := by
  have h1 : harvestSelect 2 2 [0, 2, 3 / 2, 10]
      [[0, 5, 5, 5], [5, 0, 5, 5]] = [0, 0, 0] := by
    norm_num [harvestSelect, harvestPool, harvest_ibests_list,
      harvest_ibests, harvestKeep, mean_gm_best, std2_gm_best, medianL,
      meanL, varL, exceedsB, argsortL, gmsAt, List.insertionSort,
      List.orderedInsert, idxValLE, List.enum, List.enumFrom,
      List.range_succ]
  refine ⟨h1, ?_, ?_, ?_, by norm_num [gmsAt], by norm_num, by
    rw [h1]; decide⟩
  · norm_num [harvestSelect, harvestPool, harvest_ibests_list,
      harvest_ibests, harvestKeep, mean_gm_best, std2_gm_best, medianL,
      meanL, varL, exceedsB, argsortL, gmsAt, List.insertionSort,
      List.orderedInsert, idxValLE, List.enum, List.enumFrom,
      List.range_succ]
  · norm_num [mean_gm_best, harvest_ibests, medianL, argsortL, gmsAt,
      List.insertionSort, List.orderedInsert, idxValLE, List.enum,
      List.enumFrom]
  · norm_num [std2_gm_best, harvest_ibests, varL, meanL, argsortL, gmsAt,
      List.insertionSort, List.orderedInsert, idxValLE, List.enum,
      List.enumFrom]

end Grond
